import Mathlib

/-!
Verification of the label-reconciliation and IOB-encoding pipeline of the
eBay-NER repository (`src/utilities.py`).

The two core operations are embedded from the Python source:

* `fix_aspect_values` (the spec's `mergeFragments`): iterates over the rows
  in reverse index order; whenever a row's `Tag` is missing (`pd.isna`), the
  row's `Token` is appended (with a single space) to the `Token` of the row
  at the previous index, and the row is dropped.  Reading the predecessor of
  index 0 fails in pandas with a `KeyError` (there is no label `-1`), which
  we model by returning `none`.
* `convert_to_iob` (the spec's `encodeIOB`): groups rows with
  `df.groupby('Record Number')` — pandas emits groups in ascending sorted
  key order, preserving the original row order inside each group — and runs
  a per-group scan with state `previous_label`, comparing each label against
  `previous_label.replace('I-', '')` (Python `str.replace` removes *all*
  occurrences of the pattern).

Rows are modelled as explicit structures; a missing tag is `Option.none`;
dataframe row order is list order.
-/

/-- One row of the merger's input: `Record Number`, `Token`, `Tag`.
A missing (`NaN`) tag is `none`. -/
structure TaggedToken where
  record_id : Nat
  token : String
  label : Option String
deriving DecidableEq

/-- Embeds the reverse loop of `fix_aspect_values` (utilities.py lines
104-111).  The argument list is the dataframe rows in *reverse* order (the
head is the row with the highest index, processed first).  A row whose tag
is missing has its token appended to the token of the row at the previous
index — the next element of the reversed list — and is dropped; if no
previous row exists (the loop reached index 0), pandas raises a `KeyError`
when reading `df.loc[-1, 'Token']`, modelled as `none`.  The output list is
in original (forward) order, matching `df.reset_index(drop=True)`. -/
def mergeRevAux : List TaggedToken → Option (List TaggedToken)
  | [] => some []
  | ⟨rid, tok, some lab⟩ :: rs =>
    (mergeRevAux rs).map (fun out => out ++ [⟨rid, tok, some lab⟩])
  | [⟨_, _, none⟩] => none
  | ⟨_, tok, none⟩ :: p :: rs' =>
    mergeRevAux ({ p with token := p.token ++ " " ++ tok } :: rs')
termination_by l => l.length

/-- The token text of the row being visited, after the loop has appended the
tokens of the already-dropped missing-label rows above it: `c = some s`
records that the rows just above carried text `s` which the code has merged
into the current row via `df.loc[i-1,'Token'] = df.loc[i-1,'Token'] + ' ' +
df.loc[i,'Token']`. -/
def carryTok (t : String) : Option String → String
  | none => t
  | some s => t ++ " " ++ s

/-- Structurally recursive rendering of the same reverse loop: instead of
rewriting the predecessor row in place, the text that the code has merged
into the not-yet-visited predecessor is kept as a pending carry.  Proved
equal to `mergeRevAux` in `mergeRevAux_eq_carry`. -/
def mergeRevCarry : List TaggedToken → Option String → Option (List TaggedToken)
  | [], none => some []
  | [], some _ => none
  | r :: rs, c =>
    match r.label with
    | some _ => (mergeRevCarry rs none).map (fun out => out ++ [{ r with token := carryTok r.token c }])
    | none => mergeRevCarry rs (some (carryTok r.token c))

/-- Embedding of `fix_aspect_values` from utilities.py: the rows are scanned from the
last index down to index 0 (`range(len(df) - 1, -1, -1)`), so the reverse
loop runs on the reversed row list.  The final column rename
(`Token -> Aspect Value`, `Tag -> Aspect Name`) does not change any value
and is not modelled as a separate type. -/
def fix_aspect_values (rows : List TaggedToken) : Option (List TaggedToken) :=
  mergeRevAux rows.reverse

/-- Joins fragments with exactly one space between consecutive fragments. -/
def joinSp : List String → String
  | [] => ""
  | [a] => a
  | a :: b :: rest => a ++ " " ++ joinSp (b :: rest)

/-- Modelled from the spec's words (§4.1): each labelled row absorbs the
maximal run of missing-label rows that follows it, its merged value being
the fragments in original order separated by exactly one space; a leading
missing-label row is an error. -/
def mergeFragmentsSpec : List TaggedToken → Option (List TaggedToken)
  | [] => some []
  | ⟨_, _, none⟩ :: _ => none
  | ⟨rid, tok, some lab⟩ :: rs =>
    (mergeFragmentsSpec (rs.dropWhile (fun x => x.label.isNone))).map
      (fun out =>
        ⟨rid, joinSp (tok :: (rs.takeWhile (fun x => x.label.isNone)).map (fun x => x.token)),
          some lab⟩ :: out)
termination_by l => l.length
decreasing_by
  simp only [List.length_cons]
  have hle : ∀ l : List TaggedToken,
      (l.dropWhile (fun x => x.label.isNone)).length ≤ l.length := by
    intro l
    induction l with
    | nil => simp [List.dropWhile]
    | cons a t ih =>
      rw [List.dropWhile_cons]
      split
      · exact Nat.le_succ_of_le ih
      · simp
  exact Nat.lt_succ_of_le (hle _)

/-- The pending carry accumulated by a run of missing-label rows, visited in
reverse order. -/
def dCarry : List TaggedToken → Option String → Option String
  | [], c => c
  | d :: D, c => dCarry D (some (carryTok d.token c))

/-- Python `s.replace('I-', '')` on the character list of `s`: scan left to
right; whenever the next two characters are `I`, `-`, drop them and continue
after the match (non-overlapping), otherwise keep one character and move on.
-/
def removeItag : List Char → List Char
  | [] => []
  | 'I' :: '-' :: rest => removeItag rest
  | c :: rest => c :: removeItag rest

/-- Embedding of `previous_label.replace('I-', '')` from utilities.py line 151. -/
def replaceItags (s : String) : String := ⟨removeItag s.data⟩

/-- One row of the IOB encoder's input: `Record Number`, `Aspect Value`,
`Aspect Name`.  After merging, every row carries a concrete aspect name, so
the label column is a plain string (`"O"` marks outside). -/
structure MergedToken where
  record_id : Nat
  aspect_value : String
  aspect_name : String
deriving DecidableEq

/-- The inner loop of `convert_to_iob` (utilities.py lines 141-158) on one
group: state `previous_label` starts at `"O"`; label `"O"` emits `"O"` and
resets; otherwise the label is compared with
`previous_label.replace('I-', '')` — unequal emits `"B-" + label`, equal
emits `"I-" + label` — and `previous_label` becomes `"I-" + label`. -/
def iobGroup : String → List String → List String
  | _, [] => []
  | prev, l :: ls =>
    if l = "O" then "O" :: iobGroup "O" ls
    else if l ≠ replaceItags prev then ("B-" ++ l) :: iobGroup ("I-" ++ l) ls
    else ("I-" ++ l) :: iobGroup ("I-" ++ l) ls

/-- The keys enumerated by `df.groupby('Record Number')`: pandas yields one
group per distinct key, in ascending sorted key order. -/
def groupKeys (df : List MergedToken) : List Nat :=
  List.insertionSort (· ≤ ·) ((df.map (fun r => r.record_id)).dedup)

/-- The `'Aspect Name'` column of the group of key `k`: the rows with that
record number, in original row order (pandas groups preserve intra-group
order). -/
def groupLabels (df : List MergedToken) (k : Nat) : List String :=
  (df.filter (fun r => r.record_id == k)).map (fun r => r.aspect_name)

/-- Embedding of `convert_to_iob` from utilities.py lines 122-161: iterate the groups of
`df.groupby('Record Number')` in pandas order (ascending key), run the
per-group scan with `previous_label` re-initialised to `"O"`, and append all
emitted labels to one flat list. -/
def convert_to_iob (df : List MergedToken) : List String :=
  (groupKeys df).flatMap (fun k => iobGroup "O" (groupLabels df k))

/-- Explicit rendering of the per-group state: outside any span, or inside a
span whose stored entity type is the string argument. -/
inductive IOBState where
  | outside : IOBState
  | inside : String → IOBState
deriving DecidableEq

/-- The per-group transition system, with the state kept as an explicit
tagged union instead of the string `previous_label`: `"O"` resets to
`outside`; otherwise `inside t` continues a span exactly when the current
label equals the stored entity type with every occurrence of `"I-"`
removed, and the next state is `inside` of the current label. -/
def iobMachine : IOBState → List String → List String
  | _, [] => []
  | s, l :: ls =>
    if l = "O" then "O" :: iobMachine IOBState.outside ls
    else
      match s with
      | IOBState.outside => ("B-" ++ l) :: iobMachine (IOBState.inside l) ls
      | IOBState.inside t =>
        if l = replaceItags t then ("I-" ++ l) :: iobMachine (IOBState.inside l) ls
        else ("B-" ++ l) :: iobMachine (IOBState.inside l) ls

/-- The two columns `convert_to_iob` actually reads from each row. -/
def projPair (r : MergedToken) : Nat × String := (r.record_id, r.aspect_name)

/-- Function `convert_to_iob` rewritten to consume only the projected
(record number, aspect name) pairs. -/
def convertPairs (ps : List (Nat × String)) : List String :=
  (List.insertionSort (· ≤ ·) ((ps.map Prod.fst).dedup)).flatMap
    (fun k => iobGroup "O" ((ps.filter (fun p => p.1 == k)).map Prod.snd))

/-- Modelled from the claim C1 wording: the previous label's entity type is
obtained by stripping an `"I-"` *prefix* if present (not by removing every
occurrence). -/
def dropLeadI (s : String) : String :=
  if s.data.take 2 = ['I', '-'] then ⟨s.data.drop 2⟩ else s

/-- Modelled from the claim C1 wording: per-group scan whose `INSIDE`
comparison strips only a leading `"I-"` from `previous_label`. -/
def iobGroupC1 : String → List String → List String
  | _, [] => []
  | prev, l :: ls =>
    if l = "O" then "O" :: iobGroupC1 "O" ls
    else if dropLeadI prev = l then ("I-" ++ l) :: iobGroupC1 ("I-" ++ l) ls
    else ("B-" ++ l) :: iobGroupC1 ("I-" ++ l) ls

/-- Modelled from the claim C1 wording: `encodeIOB` with the prefix-stripping
state machine on every group. -/
def convertClaimC1 (df : List MergedToken) : List String :=
  (groupKeys df).flatMap (fun k => iobGroupC1 "O" (groupLabels df k))

/-- Distinct keys in order of first appearance, accumulating the keys already
seen. -/
def firstKeysAux : List Nat → List Nat → List Nat
  | _, [] => []
  | seen, k :: ks =>
    if k ∈ seen then firstKeysAux seen ks else k :: firstKeysAux (k :: seen) ks

/-- Distinct keys in order of first appearance. -/
def firstKeys (l : List Nat) : List Nat := firstKeysAux [] l

/-- Modelled from the claim C3 wording: grouping whose group order is the
order in which each group's first member first appears in the input. -/
def convertStableC3 (df : List MergedToken) : List String :=
  (firstKeys (df.map (fun r => r.record_id))).flatMap
    (fun k => iobGroup "O" (groupLabels df k))

/-- The caller-visible state of the input dataframe after `fix_aspect_values`
returns (or raises), again with the rows listed in reverse index order.
Inside the function, `df` is the caller's object until the first
`df = df.drop(i)` rebinds the local name to a fresh copy; hence only the
*first* missing-label row found by the reverse scan executes its
`df.loc[i-1, 'Token'] = df.loc[i-1, 'Token'] + ' ' + df.loc[i, 'Token']`
against the caller's dataframe.  Every later assignment, every drop, the
`reset_index` and the `rename` all act on copies.  If the first missing
label sits at index 0, the read of `df.loc[-1, 'Token']` raises before the
assignment, so the caller's rows are untouched. -/
def callerAfterRev : List TaggedToken → List TaggedToken
  | [] => []
  | ⟨rid, tok, some lab⟩ :: rs => ⟨rid, tok, some lab⟩ :: callerAfterRev rs
  | [⟨rid, tok, none⟩] => [⟨rid, tok, none⟩]
  | ⟨rid, tok, none⟩ :: p :: rs' =>
    ⟨rid, tok, none⟩ :: { p with token := p.token ++ " " ++ tok } :: rs'

/-- The caller's rows, in original order, after calling `fix_aspect_values`. -/
def caller_after_fix (rows : List TaggedToken) : List TaggedToken :=
  (callerAfterRev rows.reverse).reverse

theorem mergeRevAux_eq_carry : ∀ l : List TaggedToken, mergeRevAux l = mergeRevCarry l none := by
  intro l
  induction l using mergeRevAux.induct
  all_goals simp_all [mergeRevAux, mergeRevCarry, carryTok]

theorem fix_eq_carry (rows : List TaggedToken) :
    fix_aspect_values rows = mergeRevCarry rows.reverse none :=
  mergeRevAux_eq_carry rows.reverse

example : mergeRevCarry
    [⟨1, "Inc", none⟩, ⟨1, "Apple", some "Brand"⟩] none =
    some [⟨1, "Apple Inc", some "Brand"⟩] := by decide

example : fix_aspect_values
    [⟨1, "Apple", some "Brand"⟩, ⟨2, "Inc", none⟩] =
    some [⟨1, "Apple Inc", some "Brand"⟩] := by
  rw [fix_eq_carry]; decide

example : fix_aspect_values [⟨1, "Inc", none⟩, ⟨1, "x", some "B"⟩] = none := by
  rw [fix_eq_carry]; decide

theorem mergeRevCarry_cons_some (rid : Nat) (tok lab : String) (rs : List TaggedToken)
    (c : Option String) :
    mergeRevCarry (⟨rid, tok, some lab⟩ :: rs) c =
      (mergeRevCarry rs none).map (fun out => out ++ [⟨rid, carryTok tok c, some lab⟩]) := rfl

theorem mergeRevCarry_cons_none (rid : Nat) (tok : String) (rs : List TaggedToken)
    (c : Option String) :
    mergeRevCarry (⟨rid, tok, none⟩ :: rs) c = mergeRevCarry rs (some (carryTok tok c)) := rfl

theorem mergeRevCarry_append (M : List TaggedToken) :
    ∀ (L : List TaggedToken) (c : Option String) (outL : List TaggedToken),
    mergeRevCarry L c = some outL →
    mergeRevCarry (L ++ M) c = (mergeRevCarry M none).map (fun out => out ++ outL) := by
  intro L
  induction L with
  | nil =>
    intro c outL h
    cases c with
    | none =>
      simp only [mergeRevCarry, Option.some.injEq] at h
      subst h
      simp
    | some s => simp [mergeRevCarry] at h
  | cons r rs ih =>
    obtain ⟨rid, tok, lb⟩ := r
    intro c outL h
    cases lb with
    | some lab =>
      rw [mergeRevCarry_cons_some] at h
      obtain ⟨o, ho, rfl⟩ := Option.map_eq_some'.mp h
      rw [List.cons_append, mergeRevCarry_cons_some, ih none o ho]
      cases mergeRevCarry M none <;> simp
    | none =>
      rw [mergeRevCarry_cons_none] at h
      rw [List.cons_append, mergeRevCarry_cons_none]
      exact ih _ outL h

theorem mergeRevCarry_last_none (x : TaggedToken) (hx : x.label = none) :
    ∀ (L : List TaggedToken) (c : Option String), mergeRevCarry (L ++ [x]) c = none := by
  obtain ⟨xr, xt, xl⟩ := x
  cases hx
  intro L
  induction L with
  | nil =>
    intro c
    rw [List.nil_append, mergeRevCarry_cons_none]
    rfl
  | cons r rs ih =>
    obtain ⟨rid, tok, lb⟩ := r
    intro c
    cases lb with
    | some lab =>
      rw [List.cons_append, mergeRevCarry_cons_some, ih]
      rfl
    | none =>
      rw [List.cons_append, mergeRevCarry_cons_none]
      exact ih _

theorem mergeRevCarry_run (M : List TaggedToken) :
    ∀ (D : List TaggedToken), (∀ d ∈ D, d.label = none) → ∀ (c : Option String),
    mergeRevCarry (D ++ M) c = mergeRevCarry M (dCarry D c) := by
  intro D
  induction D with
  | nil => intro _ c; rfl
  | cons d D' ih =>
    obtain ⟨rid, tok, lb⟩ := d
    intro hD c
    have hd : lb = none := hD ⟨rid, tok, lb⟩ (by simp)
    subst hd
    rw [List.cons_append, mergeRevCarry_cons_none, dCarry]
    exact ih (fun x hx => hD x (by simp [hx])) _

theorem dCarry_append_one (a : TaggedToken) :
    ∀ (X : List TaggedToken) (c : Option String),
    dCarry (X ++ [a]) c = some (carryTok a.token (dCarry X c)) := by
  intro X
  induction X with
  | nil => intro c; rfl
  | cons x X' ih => intro c; rw [List.cons_append, dCarry, dCarry, ih]

theorem carryTok_dCarry_reverse :
    ∀ (cont : List TaggedToken) (x : String),
    carryTok x (dCarry cont.reverse none) = joinSp (x :: cont.map (fun d => d.token)) := by
  intro cont
  induction cont with
  | nil => intro x; rfl
  | cons a cont' ih =>
    intro x
    rw [List.reverse_cons, dCarry_append_one, List.map_cons]
    have h1 : carryTok x (some (carryTok a.token (dCarry cont'.reverse none))) =
        x ++ " " ++ carryTok a.token (dCarry cont'.reverse none) := rfl
    rw [h1, ih a.token]
    cases h2 : cont'.map (fun d => d.token) with
    | nil => rfl
    | cons b bs => rfl

theorem mergeRevCarry_chunk (cont : List TaggedToken) (hc : ∀ d ∈ cont, d.label = none)
    (rid : Nat) (tok : String) (lab : String) :
    mergeRevCarry (cont.reverse ++ [⟨rid, tok, some lab⟩]) none =
      some [⟨rid, joinSp (tok :: cont.map (fun d => d.token)), some lab⟩] := by
  rw [mergeRevCarry_run [⟨rid, tok, some lab⟩] cont.reverse
      (fun d hd => hc d (List.mem_reverse.mp hd)) none]
  rw [mergeRevCarry_cons_some, carryTok_dCarry_reverse]
  rfl

theorem head_dropWhile {α : Type} (p : α → Bool) :
    ∀ (l : List α) (a : α) (t : List α), l.dropWhile p = a :: t → p a = false := by
  intro l
  induction l with
  | nil => intro a t h; simp [List.dropWhile] at h
  | cons x xs ih =>
    intro a t h
    rw [List.dropWhile_cons] at h
    by_cases hx : p x = true
    · exact ih a t (by simpa [hx] using h)
    · simp [hx] at h
      obtain ⟨rfl, _⟩ := h
      simpa using hx

theorem spec_none_iff : ∀ l : List TaggedToken,
    mergeFragmentsSpec l = none ↔ ∃ r t, l = r :: t ∧ r.label = none := by
  intro l
  induction l using mergeFragmentsSpec.induct with
  | case1 => simp [mergeFragmentsSpec]
  | case2 rid tok rs =>
    simp only [mergeFragmentsSpec, true_iff]
    exact ⟨⟨rid, tok, none⟩, rs, rfl, rfl⟩
  | case3 rid tok lab rs ih =>
    rw [mergeFragmentsSpec]
    simp only [Option.map_eq_none', ih]
    constructor
    · rintro ⟨r, t, hdrop, hnone⟩
      have hfalse := head_dropWhile (fun x => x.label.isNone) rs r t hdrop
      simp [hnone] at hfalse
    · rintro ⟨r, t, heq, hnone⟩
      rw [List.cons.injEq] at heq
      obtain ⟨hr, -⟩ := heq
      rw [← hr] at hnone
      simp at hnone

theorem fix_eq_spec (rows : List TaggedToken) :
    fix_aspect_values rows = mergeFragmentsSpec rows := by
  rw [fix_eq_carry]
  induction rows using mergeFragmentsSpec.induct with
  | case1 => simp [mergeRevCarry, mergeFragmentsSpec]
  | case2 rid tok rs =>
    rw [List.reverse_cons, mergeRevCarry_last_none ⟨rid, tok, none⟩ rfl, mergeFragmentsSpec]
  | case3 rid tok lab rs ih =>
    have hcont : ∀ d ∈ rs.takeWhile (fun x => x.label.isNone), d.label = none := by
      intro d hd
      have hb := List.mem_takeWhile_imp hd
      simpa [Option.isNone_iff_eq_none] using hb
    cases hrest : mergeFragmentsSpec (rs.dropWhile (fun x => x.label.isNone)) with
    | none =>
      obtain ⟨r, t, hdrop, hnone⟩ := (spec_none_iff _).mp hrest
      have hfalse := head_dropWhile (fun x => x.label.isNone) rs r t hdrop
      simp [hnone] at hfalse
    | some outRest =>
      rw [hrest] at ih
      rw [List.reverse_cons]
      conv_lhs =>
        rw [← List.takeWhile_append_dropWhile (fun x => x.label.isNone) rs,
          List.reverse_append, List.append_assoc]
      rw [mergeRevCarry_append _ _ _ _ ih,
        mergeRevCarry_chunk (rs.takeWhile (fun x => x.label.isNone)) hcont rid tok lab,
        mergeFragmentsSpec, hrest]
      rfl

theorem spec_clean : ∀ rows : List TaggedToken, (∀ r ∈ rows, r.label ≠ none) →
    mergeFragmentsSpec rows = some rows := by
  intro rows
  induction rows using mergeFragmentsSpec.induct with
  | case1 => intro _; simp [mergeFragmentsSpec]
  | case2 rid tok rs =>
    intro h
    exact absurd rfl (h ⟨rid, tok, none⟩ (by simp))
  | case3 rid tok lab rs ih =>
    intro h
    have htake : rs.takeWhile (fun x => x.label.isNone) = [] := by
      cases rs with
      | nil => rfl
      | cons a t =>
        have ha : a.label ≠ none := h a (by simp)
        rw [List.takeWhile_cons]
        simp [Option.isNone_iff_eq_none, ha]
    have hdropr : rs.dropWhile (fun x => x.label.isNone) = rs := by
      cases rs with
      | nil => rfl
      | cons a t =>
        have ha : a.label ≠ none := h a (by simp)
        rw [List.dropWhile_cons]
        simp [Option.isNone_iff_eq_none, ha]
    rw [hdropr] at ih
    rw [mergeFragmentsSpec, htake, hdropr, ih (fun r hr => h r (List.mem_cons_of_mem _ hr))]
    rfl

theorem spec_length : ∀ (rows out : List TaggedToken), mergeFragmentsSpec rows = some out →
    out.length = (rows.filter (fun r => r.label.isSome)).length := by
  intro rows
  induction rows using mergeFragmentsSpec.induct with
  | case1 =>
    intro out h
    simp only [mergeFragmentsSpec, Option.some.injEq] at h
    subst h
    rfl
  | case2 rid tok rs =>
    intro out h
    simp [mergeFragmentsSpec] at h
  | case3 rid tok lab rs ih =>
    intro out h
    rw [mergeFragmentsSpec] at h
    obtain ⟨o, ho, rfl⟩ := Option.map_eq_some'.mp h
    have hfiltake : (rs.takeWhile (fun x => x.label.isNone)).filter
        (fun r => r.label.isSome) = [] := by
      rw [List.filter_eq_nil_iff]
      intro a ha
      have := List.mem_takeWhile_imp ha
      simp only [Option.isNone_iff_eq_none] at this
      simp [this]
    have hsplit : (rs.filter (fun r => r.label.isSome)).length =
        ((rs.dropWhile (fun x => x.label.isNone)).filter (fun r => r.label.isSome)).length := by
      conv_lhs => rw [← List.takeWhile_append_dropWhile (fun x => x.label.isNone) rs]
      rw [List.filter_append, hfiltake, List.nil_append]
    simp only [List.length_cons, List.filter_cons, Option.isSome_some, if_pos, hsplit]
    rw [ih o ho]

example : mergeFragmentsSpec
    [⟨1, "RX", some "Model"⟩, ⟨1, "100", none⟩, ⟨1, "red", some "Color"⟩] =
    some [⟨1, "RX 100", some "Model"⟩, ⟨1, "red", some "Color"⟩] := by
  rw [← fix_eq_spec, fix_eq_carry]
  decide

example : replaceItags "I-I-B" = "B" := by decide

example : replaceItags "O" = "O" := by decide

example : replaceItags "WI-FI" = "WFI" := by decide

example : replaceItags "I-WI-FI" = "WFI" := by decide

example : convert_to_iob
    [⟨1, "t1", "O"⟩, ⟨1, "t2", "Brand"⟩, ⟨1, "t3", "Brand"⟩, ⟨1, "t4", "O"⟩, ⟨1, "t5", "Color"⟩] =
    ["O", "B-Brand", "I-Brand", "O", "B-Color"] := by decide

example : convert_to_iob [⟨2, "x", "Brand"⟩, ⟨1, "y", "Color"⟩] =
    ["B-Color", "B-Brand"] := by decide

example : convert_to_iob
    [⟨1, "a", "Brand"⟩, ⟨1, "b", "Brand"⟩, ⟨2, "c", "Brand"⟩] =
    ["B-Brand", "I-Brand", "B-Brand"] := by decide

example : iobGroup "O" ["I-B", "I-B"] = ["B-I-B", "B-I-B"] := by decide

theorem replaceItags_O : replaceItags "O" = "O" := rfl

theorem replaceItags_Icons (l : String) : replaceItags ("I-" ++ l) = replaceItags l := by
  cases l
  rfl

theorem iobGroup_eq_machine : ∀ ls : List String,
    iobGroup "O" ls = iobMachine IOBState.outside ls ∧
    ∀ t, iobGroup ("I-" ++ t) ls = iobMachine (IOBState.inside t) ls := by
  intro ls
  induction ls with
  | nil => exact ⟨rfl, fun _ => rfl⟩
  | cons l ls ih =>
    constructor
    · by_cases h0 : l = "O"
      · simp [iobGroup, iobMachine, h0, ih.1]
      · have hB : l ≠ replaceItags "O" := by
          rw [replaceItags_O]
          exact h0
        simp [iobGroup, iobMachine, h0, hB, ih.2]
    · intro t
      by_cases h0 : l = "O"
      · simp [iobGroup, iobMachine, h0, ih.1]
      · by_cases hi : l = replaceItags t
        · have hc : ¬(l ≠ replaceItags ("I-" ++ t)) := by
            rw [replaceItags_Icons]
            exact fun hcon => hcon hi
          simp only [iobGroup, iobMachine, if_neg h0, if_neg hc, if_pos hi]
          exact congrArg _ (ih.2 l)
        · have hc : l ≠ replaceItags ("I-" ++ t) := by
            rw [replaceItags_Icons]
            exact hi
          simp only [iobGroup, iobMachine, if_neg h0, if_pos hc, if_neg hi]
          exact congrArg _ (ih.2 l)

theorem length_iobGroup : ∀ (ls : List String) (prev : String),
    (iobGroup prev ls).length = ls.length := by
  intro ls
  induction ls with
  | nil => intro prev; rfl
  | cons l t ih =>
    intro prev
    simp only [iobGroup]
    split
    · simp [ih]
    · split <;> simp [ih]

theorem sorted_groupKeys (df : List MergedToken) : List.Sorted (· ≤ ·) (groupKeys df) :=
  List.sorted_insertionSort _ _

theorem nodup_groupKeys (df : List MergedToken) : (groupKeys df).Nodup :=
  ((List.perm_insertionSort _ _).nodup_iff).mpr (List.nodup_dedup _)

theorem mem_groupKeys (df : List MergedToken) (k : Nat) :
    k ∈ groupKeys df ↔ ∃ r ∈ df, r.record_id = k := by
  rw [groupKeys, (List.perm_insertionSort _ _).mem_iff, List.mem_dedup, List.mem_map]

theorem flatMap_filter_perm :
    ∀ (ks : List Nat) (df : List MergedToken), ks.Nodup → (∀ r ∈ df, r.record_id ∈ ks) →
    (ks.flatMap (fun k => df.filter (fun r => r.record_id == k))).Perm df := by
  intro ks
  induction ks with
  | nil =>
    intro df _ hcov
    cases df with
    | nil => simp
    | cons r t => exact absurd (hcov r (by simp)) (by simp)
  | cons k ks ih =>
    intro df hnd hcov
    have hnk : k ∉ ks := (List.nodup_cons.mp hnd).1
    have hnd' : ks.Nodup := (List.nodup_cons.mp hnd).2
    rw [List.flatMap_cons]
    have hcong : ks.flatMap (fun j => df.filter (fun r => r.record_id == j)) =
        ks.flatMap (fun j => (df.filter (fun r => !(r.record_id == k))).filter
          (fun r => r.record_id == j)) := by
      apply List.flatMap_congr
      intro j hj
      rw [List.filter_filter]
      apply List.filter_congr
      intro r _
      have hjk : j ≠ k := fun he => hnk (he ▸ hj)
      by_cases hq : r.record_id = j
      · simp [hq, hjk]
      · simp [hq]
    rw [hcong]
    have hcov' : ∀ r ∈ df.filter (fun r => !(r.record_id == k)), r.record_id ∈ ks := by
      intro r hr
      rw [List.mem_filter] at hr
      have h1 := hcov r hr.1
      have h2 : ¬(r.record_id = k) := by simpa using hr.2
      rw [List.mem_cons] at h1
      exact h1.resolve_left h2
    have hperm := ih (df.filter (fun r => !(r.record_id == k))) hnd' hcov'
    exact (List.Perm.append_left _ hperm).trans (List.filter_append_perm _ df)

theorem cover_groupKeys (df : List MergedToken) : ∀ r ∈ df, r.record_id ∈ groupKeys df :=
  fun r hr => (mem_groupKeys df _).mpr ⟨r, hr, rfl⟩

theorem convert_length_eq (df : List MergedToken) :
    (convert_to_iob df).length = df.length := by
  have h1 : (convert_to_iob df).length =
      ((groupKeys df).flatMap (fun k => df.filter (fun r => r.record_id == k))).length := by
    rw [convert_to_iob, List.length_flatMap, List.length_flatMap]
    congr 1
    apply List.map_congr_left
    intro k _
    simp [Function.comp, length_iobGroup, groupLabels]
  rw [h1,
    (flatMap_filter_perm (groupKeys df) df (nodup_groupKeys df) (cover_groupKeys df)).length_eq]

theorem groupKeys_append (df₁ df₂ : List MergedToken)
    (h : ∀ r₁ ∈ df₁, ∀ r₂ ∈ df₂, r₁.record_id < r₂.record_id) :
    groupKeys (df₁ ++ df₂) = groupKeys df₁ ++ groupKeys df₂ := by
  have hdisj : ∀ a, a ∈ groupKeys df₁ → a ∈ groupKeys df₂ → False := by
    intro a h1 h2
    obtain ⟨r₁, hr₁, he₁⟩ := (mem_groupKeys df₁ a).mp h1
    obtain ⟨r₂, hr₂, he₂⟩ := (mem_groupKeys df₂ a).mp h2
    have := h r₁ hr₁ r₂ hr₂
    omega
  have hnodRHS : (groupKeys df₁ ++ groupKeys df₂).Nodup := by
    rw [List.nodup_append]
    exact ⟨nodup_groupKeys df₁, nodup_groupKeys df₂, fun a ha hb => hdisj a ha hb⟩
  have hperm : (groupKeys (df₁ ++ df₂)).Perm (groupKeys df₁ ++ groupKeys df₂) := by
    rw [List.perm_ext_iff_of_nodup (nodup_groupKeys _) hnodRHS]
    intro a
    rw [List.mem_append, mem_groupKeys, mem_groupKeys, mem_groupKeys]
    constructor
    · rintro ⟨r, hr, he⟩
      rw [List.mem_append] at hr
      exact hr.elim (fun hr1 => Or.inl ⟨r, hr1, he⟩) (fun hr2 => Or.inr ⟨r, hr2, he⟩)
    · rintro (⟨r, hr, he⟩ | ⟨r, hr, he⟩)
      · exact ⟨r, List.mem_append_left _ hr, he⟩
      · exact ⟨r, List.mem_append_right _ hr, he⟩
  have hsortRHS : List.Sorted (· ≤ ·) (groupKeys df₁ ++ groupKeys df₂) := by
    rw [List.Sorted, List.pairwise_append]
    refine ⟨sorted_groupKeys df₁, sorted_groupKeys df₂, ?_⟩
    intro a ha b hb
    obtain ⟨r₁, hr₁, he₁⟩ := (mem_groupKeys df₁ a).mp ha
    obtain ⟨r₂, hr₂, he₂⟩ := (mem_groupKeys df₂ b).mp hb
    have := h r₁ hr₁ r₂ hr₂
    omega
  exact List.eq_of_perm_of_sorted hperm (sorted_groupKeys _) hsortRHS

theorem convert_append (df₁ df₂ : List MergedToken)
    (h : ∀ r₁ ∈ df₁, ∀ r₂ ∈ df₂, r₁.record_id < r₂.record_id) :
    convert_to_iob (df₁ ++ df₂) = convert_to_iob df₁ ++ convert_to_iob df₂ := by
  rw [convert_to_iob, convert_to_iob, convert_to_iob, groupKeys_append df₁ df₂ h,
    List.flatMap_append]
  congr 1
  · apply List.flatMap_congr
    intro k hk
    obtain ⟨r₁, hr₁, he₁⟩ := (mem_groupKeys df₁ k).mp hk
    have hnil : df₂.filter (fun r => r.record_id == k) = [] := by
      rw [List.filter_eq_nil_iff]
      intro r₂ hr₂
      have := h r₁ hr₁ r₂ hr₂
      simp only [beq_iff_eq]
      omega
    rw [groupLabels, groupLabels, List.filter_append, hnil, List.append_nil]
  · apply List.flatMap_congr
    intro k hk
    obtain ⟨r₂, hr₂, he₂⟩ := (mem_groupKeys df₂ k).mp hk
    have hnil : df₁.filter (fun r => r.record_id == k) = [] := by
      rw [List.filter_eq_nil_iff]
      intro r₁ hr₁
      have := h r₁ hr₁ r₂ hr₂
      simp only [beq_iff_eq]
      omega
    rw [groupLabels, groupLabels, List.filter_append, hnil, List.nil_append]

theorem filter_map_pairs (k : Nat) :
    ∀ df : List MergedToken,
    ((df.map projPair).filter (fun p => p.1 == k)).map Prod.snd =
    (df.filter (fun r => r.record_id == k)).map (fun r => r.aspect_name) := by
  intro df
  induction df with
  | nil => rfl
  | cons r t iht =>
    simp only [List.map_cons, List.filter_cons]
    by_cases hr : r.record_id = k
    · simp [projPair, hr, iht]
    · simp [projPair, hr, iht]

theorem convert_factors (df : List MergedToken) :
    convert_to_iob df = convertPairs (df.map projPair) := by
  rw [convert_to_iob, convertPairs, groupKeys, List.map_map]
  have hkeys : (Prod.fst ∘ projPair) = fun r : MergedToken => r.record_id := rfl
  rw [hkeys]
  apply List.flatMap_congr
  intro k _
  rw [filter_map_pairs k df, groupLabels]

example : convertStableC3 [⟨2, "x", "Brand"⟩, ⟨1, "y", "Color"⟩] =
    ["B-Brand", "B-Color"] := by decide

example : caller_after_fix [⟨1, "Apple", some "Brand"⟩, ⟨1, "Inc", none⟩] =
    [⟨1, "Apple Inc", some "Brand"⟩, ⟨1, "Inc", none⟩] := by decide

example : caller_after_fix [⟨1, "Inc", none⟩, ⟨1, "x", some "B"⟩] =
    [⟨1, "Inc", none⟩, ⟨1, "x", some "B"⟩] := by decide

/-- C1 counterexample: with aspect names that themselves contain `"I-"`,
the code disagrees with the claimed state machine — `convert_to_iob` uses
`previous_label.replace('I-', '')`, which removes every occurrence of
`"I-"`, not only a leading one; on two consecutive `"I-B"` labels the code
emits two `B-` tags while the claimed machine continues the span. -/
theorem C1_counterexample :
    convert_to_iob [⟨1, "a", "I-B"⟩, ⟨1, "b", "I-B"⟩] ≠
      convertClaimC1 [⟨1, "a", "I-B"⟩, ⟨1, "b", "I-B"⟩] := by decide

/-- C1 (amended): for every input, `convert_to_iob` emits per record group
exactly the labels of the state machine with states `outside`/`inside t`
whose continuation test compares the current label with the stored entity
type after removing every occurrence of `"I-"` (not only a leading one);
and the boundary scenario `["O", "Brand", "Brand", "O", "Color"]` encodes
to `["O", "B-Brand", "I-Brand", "O", "B-Color"]`. -/
theorem C1_iob_state_machine :
    (∀ df : List MergedToken, convert_to_iob df =
      (groupKeys df).flatMap (fun k => iobMachine IOBState.outside (groupLabels df k))) ∧
    convert_to_iob
      [⟨1, "t1", "O"⟩, ⟨1, "t2", "Brand"⟩, ⟨1, "t3", "Brand"⟩, ⟨1, "t4", "O"⟩,
        ⟨1, "t5", "Color"⟩] =
      ["O", "B-Brand", "I-Brand", "O", "B-Color"] := by
  constructor
  · intro df
    rw [convert_to_iob]
    apply List.flatMap_congr
    intro k _
    exact (iobGroup_eq_machine _).1
  · decide

/-- C2 counterexample: a missing-label row that starts record 2 but has a
predecessor row in the input (the last row of record 1) does not make
`fix_aspect_values` fail — its token is silently merged across the record
boundary into the last row of record 1. -/
theorem C2_counterexample :
    fix_aspect_values [⟨1, "Apple", some "Brand"⟩, ⟨2, "Inc", none⟩] =
      some [⟨1, "Apple Inc", some "Brand"⟩] := by
  rw [fix_eq_carry]
  decide

/-- C2 (amended): `fix_aspect_values` fails exactly when the very first row
of the whole input has a missing label (the code reads the nonexistent
index `-1` and pandas raises a `KeyError`; no `MalformedRecordError` type
exists).  A missing-label row that merely starts a later record is not an
error: it is silently merged into the previous record's last row. -/
theorem C2_merge_error_iff (rows : List TaggedToken) :
    fix_aspect_values rows = none ↔ ∃ r t, rows = r :: t ∧ r.label = none := by
  rw [fix_eq_spec]
  exact spec_none_iff rows

/-- C3 counterexample: `df.groupby('Record Number')` emits the groups in
ascending key order, not in order of first appearance — on rows with record
numbers `[2, 1]` the code outputs record 1's label first, unlike the
claimed stable grouping. -/
theorem C3_counterexample :
    convert_to_iob [⟨2, "x", "Brand"⟩, ⟨1, "y", "Color"⟩] ≠
      convertStableC3 [⟨2, "x", "Brand"⟩, ⟨1, "y", "Color"⟩] := by decide

/-- C3 (amended): `convert_to_iob` partitions rows by record number and
emits the groups in ascending sorted key order (each distinct key exactly
once, and exactly the keys present in the input); within each group the
original row order is preserved (the group's labels are the filter of the
input in input order). -/
theorem C3_sorted_grouping (df : List MergedToken) :
    List.Sorted (· ≤ ·) (groupKeys df) ∧ (groupKeys df).Nodup ∧
    (∀ k, k ∈ groupKeys df ↔ ∃ r ∈ df, r.record_id = k) ∧
    convert_to_iob df = (groupKeys df).flatMap (fun k =>
      iobGroup "O" ((df.filter (fun r => r.record_id == k)).map (fun r => r.aspect_name))) :=
  ⟨sorted_groupKeys df, nodup_groupKeys df, fun k => mem_groupKeys df k, rfl⟩

/-- C4: whenever `fix_aspect_values` returns a row list, its length equals
the number of input rows whose label is not missing. -/
theorem C4_merge_count_law (rows out : List TaggedToken)
    (h : fix_aspect_values rows = some out) :
    out.length = (rows.filter (fun r => r.label.isSome)).length := by
  rw [fix_eq_spec] at h
  exact spec_length rows out h

theorem C4_merge_count_law_witness :
    ([⟨1, "Apple Inc", some "Brand"⟩] : List TaggedToken).length =
      (([⟨1, "Apple", some "Brand"⟩, ⟨1, "Inc", none⟩] : List TaggedToken).filter
        (fun r => r.label.isSome)).length :=
  C4_merge_count_law [⟨1, "Apple", some "Brand"⟩, ⟨1, "Inc", none⟩]
    [⟨1, "Apple Inc", some "Brand"⟩] (by rw [fix_eq_carry]; decide)

/-- C5: `fix_aspect_values` agrees everywhere with the specification
function in which each merged row's value is its fragments in original
token order joined by exactly one space; in particular merging tokens
`["Apple", "Inc"]` with labels `["Brand", missing]` yields exactly one row
with value `"Apple Inc"` and name `Brand`. -/
theorem C5_concatenation_order :
    (∀ rows : List TaggedToken, fix_aspect_values rows = mergeFragmentsSpec rows) ∧
    fix_aspect_values [⟨1, "Apple", some "Brand"⟩, ⟨1, "Inc", none⟩] =
      some [⟨1, "Apple Inc", some "Brand"⟩] :=
  ⟨fix_eq_spec, by rw [fix_eq_carry]; decide⟩

/-- C6: `convert_to_iob` emits exactly one IOB label per input row. -/
theorem C6_iob_alignment (df : List MergedToken) :
    (convert_to_iob df).length = df.length :=
  convert_length_eq df

/-- C7: the per-record state is re-initialised to the outside marker at
every new group — encoding a table split into two blocks whose record
numbers are strictly increasing across the split equals encoding the two
blocks independently and concatenating, so a group's first token can never
continue the previous group's trailing span. -/
theorem C7_group_reset (df₁ df₂ : List MergedToken)
    (h : ∀ r₁ ∈ df₁, ∀ r₂ ∈ df₂, r₁.record_id < r₂.record_id) :
    convert_to_iob (df₁ ++ df₂) = convert_to_iob df₁ ++ convert_to_iob df₂ :=
  convert_append df₁ df₂ h

theorem C7_group_reset_witness :
    convert_to_iob ([⟨1, "a", "Brand"⟩, ⟨1, "b", "Brand"⟩] ++ [⟨2, "c", "Brand"⟩]) =
      ["B-Brand", "I-Brand"] ++ ["B-Brand"] :=
  (C7_group_reset [⟨1, "a", "Brand"⟩, ⟨1, "b", "Brand"⟩] [⟨2, "c", "Brand"⟩]
    (by decide)).trans (by decide)

/-- C8: on input with no missing label, `fix_aspect_values` returns the
input unchanged — same row values, same order, same count. -/
theorem C8_merge_identity_on_clean (rows : List TaggedToken)
    (h : ∀ r ∈ rows, r.label ≠ none) :
    fix_aspect_values rows = some rows := by
  rw [fix_eq_spec]
  exact spec_clean rows h

theorem C8_merge_identity_on_clean_witness :
    fix_aspect_values [⟨1, "Apple", some "Brand"⟩, ⟨2, "red", some "Color"⟩] =
      some [⟨1, "Apple", some "Brand"⟩, ⟨2, "red", some "Color"⟩] :=
  C8_merge_identity_on_clean [⟨1, "Apple", some "Brand"⟩, ⟨2, "red", some "Color"⟩]
    (by decide)

/-- C9: the claim that the caller's rows are read-only is violated — on
`[("Apple", Brand), ("Inc", missing)]` the first merge executes
`df.loc[0, 'Token'] = 'Apple' + ' ' + 'Inc'` on the caller's dataframe
before any copy-producing `drop`, so after the call the caller's first row
reads `"Apple Inc"` instead of `"Apple"`. -/
theorem C9_caller_rows_mutated :
    caller_after_fix [⟨1, "Apple", some "Brand"⟩, ⟨1, "Inc", none⟩] =
      [⟨1, "Apple Inc", some "Brand"⟩, ⟨1, "Inc", none⟩] ∧
    caller_after_fix [⟨1, "Apple", some "Brand"⟩, ⟨1, "Inc", none⟩] ≠
      [⟨1, "Apple", some "Brand"⟩, ⟨1, "Inc", none⟩] := by
  exact ⟨by decide, by decide⟩

/-- C10: the IOB output depends only on the record numbers and aspect
names — two inputs whose rows agree pointwise on those two fields (token
texts arbitrary) encode identically. -/
theorem C10_labels_ignore_tokens (df₁ df₂ : List MergedToken)
    (h : df₁.map projPair = df₂.map projPair) :
    convert_to_iob df₁ = convert_to_iob df₂ := by
  rw [convert_factors df₁, convert_factors df₂, h]

theorem C10_labels_ignore_tokens_witness :
    convert_to_iob [⟨1, "Apple", "Brand"⟩, ⟨1, "x", "O"⟩] =
      convert_to_iob [⟨1, "Samsung", "Brand"⟩, ⟨1, "y", "O"⟩] :=
  C10_labels_ignore_tokens [⟨1, "Apple", "Brand"⟩, ⟨1, "x", "O"⟩]
    [⟨1, "Samsung", "Brand"⟩, ⟨1, "y", "O"⟩] (by decide)
